import Mathlib

/-!
# Verification of `textChunker.js` (ai-learning-assistant)

A shallow embedding of `src/backend/utils/textChunker.js` — the text-chunking
and relevance-ranking core of the repository — together with theorems settling
the specification claims about it.

Strings are modelled as `List Char`.  JavaScript regular-expression behaviour
used by the source (`String.replace`, `String.split`, `String.match` with
`new RegExp(word, "gi")`) is modelled by executable functions over `List Char`,
faithful to ECMAScript semantics on the constructs the source exercises.
-/

namespace TextChunker

/-- JavaScript whitespace class: the characters matched by `\s` in an
ECMAScript regular expression, which is also the set removed by
`String.prototype.trim` (WhiteSpace ∪ LineTerminator). -/
def isJsWs (c : Char) : Bool :=
  c ∈ ([' ', '\t', '\n', '\x0b', '\x0c', '\r', '\u00a0', '\u1680', '\u2000',
        '\u2001', '\u2002', '\u2003', '\u2004', '\u2005', '\u2006', '\u2007',
        '\u2008', '\u2009', '\u200a', '\u2028', '\u2029', '\u202f', '\u205f',
        '\u3000', '\ufeff'] : List Char)

/-- `.replace(/\r\n/g, "\n")`: left-to-right non-overlapping replacement of
each CRLF pair by a single LF. -/
def replaceCrLf : List Char → List Char
  | [] => []
  | [c] => [c]
  | c :: d :: cs =>
    if c = '\r' ∧ d = '\n' then '\n' :: replaceCrLf cs
    else c :: replaceCrLf (d :: cs)

/-- `.replace(/\s+/g, " ")`: every maximal run of whitespace characters
becomes a single space.  `prevWs` records whether the previous character was
part of a whitespace run already rewritten. -/
def collapseWs (prevWs : Bool) : List Char → List Char
  | [] => []
  | c :: cs =>
    if isJsWs c then
      if prevWs then collapseWs true cs else ' ' :: collapseWs true cs
    else c :: collapseWs false cs

/-- `.replace(/\n /g, "\n")`: left-to-right non-overlapping replacement. -/
def replaceNlSp : List Char → List Char
  | [] => []
  | [c] => [c]
  | c :: d :: cs =>
    if c = '\n' ∧ d = ' ' then '\n' :: replaceNlSp cs
    else c :: replaceNlSp (d :: cs)

/-- `.replace(/ \n/g, "\n")`: left-to-right non-overlapping replacement. -/
def replaceSpNl : List Char → List Char
  | [] => []
  | [c] => [c]
  | c :: d :: cs =>
    if c = ' ' ∧ d = '\n' then '\n' :: replaceSpNl cs
    else c :: replaceSpNl (d :: cs)

/-- Remove trailing whitespace. -/
def dropTrail : List Char → List Char
  | [] => []
  | c :: cs =>
    let r := dropTrail cs
    if r.isEmpty && isJsWs c then [] else c :: r

/-- `String.prototype.trim`: remove leading and trailing whitespace. -/
def trimWs (l : List Char) : List Char := dropTrail (l.dropWhile isJsWs)

/-- The `cleanedText` local of `chunkText`: the four `replace` steps followed
by `trim`, applied in source order. -/
def cleanedText (text : List Char) : List Char :=
  trimWs (replaceSpNl (replaceNlSp (collapseWs false (replaceCrLf text))))

mutual

/-- Segment accumulation for a JavaScript `String.split` on a one-or-more
character-class regex (`/\n+/`, `/\s+/`): `cur` holds the current segment,
reversed. -/
def splitRunsAux (p : Char → Bool) (cur : List Char) : List Char → List (List Char)
  | [] => [cur.reverse]
  | c :: cs =>
    if p c then cur.reverse :: splitRunsSep p cs else splitRunsAux p (c :: cur) cs

/-- Separator-skipping state of the split: a maximal run of separator
characters counts as a single separator. -/
def splitRunsSep (p : Char → Bool) : List Char → List (List Char)
  | [] => [[]]
  | c :: cs => if p c then splitRunsSep p cs else splitRunsAux p [c] cs

end

/-- `.split(/\n+/)`. -/
def splitNl (l : List Char) : List (List Char) := splitRunsAux (· = '\n') [] l

/-- `.split(/\s+/)`. -/
def wsSplit (l : List Char) : List (List Char) := splitRunsAux isJsWs [] l

/-- `Array.prototype.join(" ")`. -/
def joinSp (ws : List (List Char)) : List Char := List.intercalate [' '] ws

/-- `Array.prototype.join("\n\n")`. -/
def joinNlNl (ps : List (List Char)) : List Char := List.intercalate ['\n', '\n'] ps

/-- The chunk record pushed by `chunkText`:
`{ content, chunkIndex, pageNumber }`. -/
structure Chunk where
  content : List Char
  chunkIndex : Nat
  pageNumber : Nat
deriving DecidableEq

/-- The sliding-window `for` loop of `chunkText`
(`for (let i = 0; i < words.length; i += chunkSize - overlap) { push slice(i, i + chunkSize); if (i + chunkSize >= words.length) break; }`),
used both for oversized paragraphs and for the final all-words fallback.
`fuel` bounds the number of iterations; `none` models a non-terminating loop
(in JavaScript, `chunkSize - overlap <= 0` makes `i` stop advancing — with a
negative step `i` leaves `[0, length)` downwards and the guard `i < length`
stays true forever — so the loop diverges unless the first window already
covers the last word; natural subtraction `cs - ov = 0` reproduces exactly
that divergence behaviour). -/
def slidingAux (pw : List (List Char)) (cs ov : Nat) :
    Nat → Nat → Nat → Option (List Chunk)
  | 0, _, _ => none
  | fuel + 1, i, idx =>
    if i < pw.length then
      let chunkWords := (pw.drop i).take cs
      let c : Chunk := ⟨joinSp chunkWords, idx, 0⟩
      if pw.length ≤ i + cs then some [c]
      else
        match slidingAux pw cs ov fuel (i + (cs - ov)) (idx + 1) with
        | some l => some (c :: l)
        | none => none
    else some []

/-- The mutable locals of the paragraph-packing loop of `chunkText`. -/
structure ChunkState where
  chunks : List Chunk
  currentChunk : List (List Char)
  currentWordCount : Nat
  chunkIndex : Nat

/-- One iteration of `for (const paragraph of paragraphs)` in `chunkText`. -/
def stepParagraph (cs ov : Nat) (st : ChunkState) (paragraph : List Char) :
    Option ChunkState :=
  let paragraphWords := wsSplit (trimWs paragraph)
  let paragraphWordCount := paragraphWords.length
  if cs < paragraphWordCount then
    -- oversized paragraph: flush the pending chunk, then slide over its words
    let st₁ : ChunkState :=
      if st.currentChunk.isEmpty then st
      else ⟨st.chunks ++ [⟨joinNlNl st.currentChunk, st.chunkIndex, 0⟩],
            [], 0, st.chunkIndex + 1⟩
    match slidingAux paragraphWords cs ov (paragraphWords.length + 1) 0 st₁.chunkIndex with
    | some ws => some ⟨st₁.chunks ++ ws, [], 0, st₁.chunkIndex + ws.length⟩
    | none => none
  else if cs < st.currentWordCount + paragraphWordCount ∧ ¬st.currentChunk.isEmpty then
    -- emit the pending chunk and seed the next one with the trailing overlap
    let prevWords := wsSplit (joinSp st.currentChunk)
    -- `prevWords.slice(-Math.min(overlap, prevWords.length))`: JavaScript
    -- `slice(-0)` is `slice(0)`, i.e. with `overlap = 0` the WHOLE previous
    -- chunk text is kept as the "overlap"
    let k := min ov prevWords.length
    let overlapText := joinSp (if k = 0 then prevWords else prevWords.drop (prevWords.length - k))
    some ⟨st.chunks ++ [⟨joinNlNl st.currentChunk, st.chunkIndex, 0⟩],
          [overlapText, trimWs paragraph],
          (wsSplit overlapText).length + paragraphWordCount,
          st.chunkIndex + 1⟩
  else
    some ⟨st.chunks, st.currentChunk ++ [trimWs paragraph],
          st.currentWordCount + paragraphWordCount, st.chunkIndex⟩

/-- The whole paragraph loop of `chunkText`. -/
def chunkLoop (cs ov : Nat) (st : ChunkState) : List (List Char) → Option ChunkState
  | [] => some st
  | p :: ps =>
    match stepParagraph cs ov st p with
    | some st' => chunkLoop cs ov st' ps
    | none => none

/-- `chunkText(text, chunkSize = 500, overlap = 50)` from
`src/backend/utils/textChunker.js`.  Returns `none` exactly when the
JavaScript original would loop forever (possible only when
`chunkSize - overlap <= 0`, see `slidingAux`).  The guard
`!text || text.trim().length === 0` is modelled by `trimWs text = []`
(an empty string is falsy and also trims to empty). -/
def chunkText (text : List Char) (cs : Nat := 500) (ov : Nat := 50) :
    Option (List Chunk) :=
  if (trimWs text).isEmpty then some []
  else
    let cleaned := cleanedText text
    let paragraphs := (splitNl cleaned).filter (fun p => ¬(trimWs p).isEmpty)
    match chunkLoop cs ov ⟨[], [], 0, 0⟩ paragraphs with
    | none => none
    | some st =>
      let chunks₁ :=
        if st.currentChunk.isEmpty then st.chunks
        else st.chunks ++ [⟨joinNlNl st.currentChunk, st.chunkIndex, 0⟩]
      if chunks₁.isEmpty ∧ ¬cleaned.isEmpty then
        let allWords := wsSplit cleaned
        slidingAux allWords cs ov (allWords.length + 1) 0 st.chunkIndex
      else some chunks₁

/-! ## The relevance ranker `findRelevantChunks` -/

/-- An atom of the regular expression built by `new RegExp(word, "gi")`. -/
inductive RAtom where
  | lit (c : Char)
  | dot
deriving DecidableEq

/-- A quantifier on an atom (`lazy` marks a `?` suffix on the quantifier). -/
inductive RQuant where
  | one
  | opt (lazy : Bool)
  | star (lazy : Bool)
  | plus (lazy : Bool)
deriving DecidableEq

/-- A compiled regular expression: a sequence of quantified atoms. -/
def Regex := List (RAtom × RQuant)

/-- `.` in an ECMAScript regex (without the `s` flag) matches anything but a
line terminator. -/
def atomMatches : RAtom → Char → Bool
  | .lit c, d => c == d
  | .dot, d => d ≠ '\n' && d ≠ '\r' && d ≠ '\u2028' && d ≠ '\u2029'

/-- `new RegExp(pattern)`: ECMAScript regex compilation, modelled on the
fragment the query tokens can exercise — literal characters, `.`, and the
quantifiers `+`, `*`, `?` (with their lazy `?` forms).  A quantifier with
nothing to repeat is a `SyntaxError`, as in ECMAScript (`/c++/` throws
"nothing to repeat").  The remaining metacharacters (groups, classes,
alternation, anchors, escapes) are conservatively reported as errors by this
model; no theorem below depends on a pattern containing them. -/
def compileAux : List (RAtom × RQuant) → List Char → Except String Regex
  | acc, [] => .ok acc.reverse
  | acc, c :: cs =>
    if c = '.' then compileAux ((.dot, .one) :: acc) cs
    else if c = '+' then
      match acc with
      | (a, .one) :: acc' => compileAux ((a, .plus false) :: acc') cs
      | _ => .error "nothing to repeat"
    else if c = '*' then
      match acc with
      | (a, .one) :: acc' => compileAux ((a, .star false) :: acc') cs
      | _ => .error "nothing to repeat"
    else if c = '?' then
      match acc with
      | (a, .one) :: acc' => compileAux ((a, .opt false) :: acc') cs
      | (a, .plus false) :: acc' => compileAux ((a, .plus true) :: acc') cs
      | (a, .star false) :: acc' => compileAux ((a, .star true) :: acc') cs
      | (a, .opt false) :: acc' => compileAux ((a, .opt true) :: acc') cs
      | _ => .error "nothing to repeat"
    else if c ∈ (['(', ')', '[', ']', '\x7b', '\x7d', '|', '\\', '^', '$'] : List Char) then
      .error "metacharacter outside the modelled regex fragment"
    else compileAux ((.lit c, .one) :: acc) cs

/-- Compile a pattern string. -/
def compileRegex (pat : List Char) : Except String Regex := compileAux [] pat

/-- Length of the longest prefix of `s` every character of which matches the
atom `a`. -/
def countPrefixA (a : RAtom) (s : List Char) : Nat :=
  (s.takeWhile (atomMatches a)).length

/-- Backtracking matcher: the length of the first match of `re` at the head of
`s`, in the engine's preference order (greedy quantifiers try longer
repetitions first, lazy ones shorter first) — exactly the match an ECMAScript
engine returns. -/
def matchHere : Regex → List Char → Option Nat
  | [], _ => some 0
  | (a, .one) :: re, s =>
    match s with
    | [] => none
    | c :: s' => if atomMatches a c then (matchHere re s').map (· + 1) else none
  | (a, .opt lz) :: re, s =>
    let one : Option Nat :=
      match s with
      | [] => none
      | c :: s' => if atomMatches a c then (matchHere re s').map (· + 1) else none
    let zero := matchHere re s
    if lz then zero <|> one else one <|> zero
  | (a, .star lz) :: re, s =>
    let m := countPrefixA a s
    let ks := if lz then List.range (m + 1) else (List.range (m + 1)).reverse
    ks.findSome? (fun k => (matchHere re (s.drop k)).map (k + ·))
  | (a, .plus lz) :: re, s =>
    let m := countPrefixA a s
    let ks := if lz then List.range' 1 m else (List.range' 1 m).reverse
    ks.findSome? (fun k => (matchHere re (s.drop k)).map (k + ·))
termination_by structural re _ => re

/-- `(str.match(regexp) || []).length` for a global regexp: the number of
non-overlapping matches scanning left to right; after a non-empty match the
scan resumes at its end, after an empty match it advances one character
(ECMAScript `lastIndex` advance rule).  `fuel` is an upper bound on the scan
steps; each step consumes at least one character of the suffix, so
`s.length + 1` always suffices. -/
def countMatchesAux (re : Regex) : Nat → List Char → Nat
  | 0, _ => 0
  | fuel + 1, s =>
    match matchHere re s with
    | none =>
      match s with
      | [] => 0
      | _ :: s' => countMatchesAux re fuel s'
    | some 0 =>
      match s with
      | [] => 1
      | _ :: s' => 1 + countMatchesAux re fuel s'
    | some (n + 1) => 1 + countMatchesAux re fuel (s.drop (n + 1))

/-- Total match count of a compiled regex over a string. -/
def countMatches (re : Regex) (s : List Char) : Nat :=
  countMatchesAux re (s.length + 1) s

/-- The stop-word set of `findRelevantChunks`. -/
def stopWords : List String :=
  ["what", "is", "the", "of", "as", "in", "a", "an", "and", "or", "to",
   "that", "this", "it", "for", "on", "are", "was", "with", "by", "at",
   "from", "stated", "text", "me", "tell", "about", "does"]

/-- `String.prototype.toLowerCase` (ASCII-adequate model; the query tokens and
chunk contents the claims exercise are ASCII). -/
def toLowerStr (l : List Char) : List Char := l.map Char.toLower

/-- `query.toLowerCase().split(/\s+/).filter(w => w.length > 2 && !stopWords.has(w))`. -/
def queryWords (query : List Char) : List (List Char) :=
  (wsSplit (toLowerStr query)).filter
    (fun w => 2 < w.length && !(stopWords.contains (String.mk w)))

/-- A chunk as returned by the ranker: the spread `{ ...chunk, score }` on the
scored path; on the fallback paths the original chunk objects are returned
unchanged, i.e. without a `score` property — modelled as `score = none`. -/
structure RankedChunk where
  content : List Char
  chunkIndex : Nat
  pageNumber : Nat
  score : Option Int
deriving DecidableEq

/-- A base chunk viewed as ranker output (no `score` property). -/
def toRanked (c : Chunk) : RankedChunk := ⟨c.content, c.chunkIndex, c.pageNumber, none⟩

/-- One element of the `scored` array:
`{ ...chunk, score: queryWords.reduce((acc, w) => acc + (content.match(new RegExp(w, "gi")) || []).length, 0) }`
over the lowercased content.  Regex compilation happens inside the reduce, so
an invalid pattern raises out of the whole call. -/
def scoreChunk (qw : List (List Char)) (c : Chunk) : Except String RankedChunk := do
  let content := toLowerStr c.content
  let score ← qw.foldlM
    (fun (acc : Int) w => do
      let re ← compileRegex w
      pure (acc + (countMatches re content : Int)))
    0
  pure ⟨c.content, c.chunkIndex, c.pageNumber, some score⟩

/-- The comparator `(a, b) => b.score - a.score` reports "b strictly before a"
exactly when both scores are present and `b.score > a.score`; when either
`score` is `undefined` the subtraction is `NaN`, which a compliant stable sort
treats as 0 (no reordering). -/
def scoreGtB (a b : RankedChunk) : Bool :=
  match a.score, b.score with
  | some x, some y => y < x
  | _, _ => false

/-- Stable insertion step for the descending sort by `score`. -/
def insertScore (x : RankedChunk) : List RankedChunk → List RankedChunk
  | [] => [x]
  | y :: ys => if scoreGtB y x then y :: insertScore x ys else x :: y :: ys

/-- `Array.prototype.sort((a, b) => b.score - a.score)`: a stable descending
sort by score (ECMAScript sort is required to be stable; elements with equal —
or incomparable, `NaN` — keys keep their input order). -/
def sortScore : List RankedChunk → List RankedChunk
  | [] => []
  | x :: xs => insertScore x (sortScore xs)

/-- `findRelevantChunks(chunks, query, topK = 5)` from
`src/backend/utils/textChunker.js`.  `!chunks || chunks.length === 0` is
modelled by `chunks.isEmpty` and `!query` by `query.isEmpty` (the empty string
is falsy); `.error` models a thrown exception (invalid regex from an
unescaped query token). -/
def findRelevantChunks (chunks : List Chunk) (query : List Char) (topK : Nat := 5) :
    Except String (List RankedChunk) :=
  if chunks.isEmpty || query.isEmpty then .ok []
  else
    let qw := queryWords query
    if qw.isEmpty then .ok ((chunks.take topK).map toRanked)
    else do
      let scored ← chunks.mapM (scoreChunk qw)
      let filtered := scored.filter (fun c => 0 < c.score.getD 0)
      let selected := if filtered.isEmpty then chunks.map toRanked else filtered
      pure ((sortScore selected).take topK)

/-- The candidate set the ranker sorts and truncates: the scored chunks with
positive score when any exist, otherwise (fallback) the whole original list;
on the two early-return paths, the empty list resp. the whole list. -/
def selectedSet (chunks : List Chunk) (query : List Char) : List RankedChunk :=
  if chunks.isEmpty || query.isEmpty then []
  else
    let qw := queryWords query
    if qw.isEmpty then chunks.map toRanked
    else
      match chunks.mapM (scoreChunk qw) with
      | .error _ => []
      | .ok scored =>
        let filtered := scored.filter (fun c => 0 < c.score.getD 0)
        if filtered.isEmpty then chunks.map toRanked else filtered

/-- "`a`'s score is at least `b`'s": the ordering the ranked output is sorted
by (vacuous when a score is absent, matching the `NaN` comparator case). -/
def scoreGe (a b : RankedChunk) : Prop :=
  ∀ x y : Int, a.score = some x → b.score = some y → y ≤ x

/-! ## Lemmas about the whitespace-normalization pipeline -/

theorem mem_replaceCrLf_of_nonWs {c : Char} (hc : isJsWs c = false) :
    ∀ {l : List Char}, c ∈ l → c ∈ replaceCrLf l := by
  intro l
  induction l using replaceCrLf.induct with
  | case1 => intro h; cases h
  | case2 d => intro h; simpa [replaceCrLf] using h
  | case3 d e cs hde ih =>
    intro h
    rw [replaceCrLf, if_pos hde]
    obtain ⟨rfl, rfl⟩ := hde
    rcases List.mem_cons.mp h with rfl | h
    · simp [isJsWs] at hc
    · rcases List.mem_cons.mp h with rfl | h
      · simp [isJsWs] at hc
      · exact List.mem_cons_of_mem _ (ih h)
  | case4 d e cs hde ih =>
    intro h
    rw [replaceCrLf, if_neg hde]
    rcases List.mem_cons.mp h with rfl | h
    · exact List.mem_cons_self _ _
    · exact List.mem_cons_of_mem _ (ih h)

theorem mem_collapseWs_ws_eq_space {c : Char} :
    ∀ {b : Bool} {l : List Char}, c ∈ collapseWs b l → isJsWs c = true → c = ' ' := by
  intro b l
  induction l generalizing b with
  | nil => intro h; simp [collapseWs] at h
  | cons d cs ih =>
    intro h hws
    rw [collapseWs] at h
    by_cases hd : isJsWs d
    · simp only [hd, if_true] at h
      cases hb : b with
      | true => simp only [hb] at h; exact ih h hws
      | false =>
        simp only [hb] at h
        rcases List.mem_cons.mp h with rfl | h
        · rfl
        · exact ih h hws
    · simp only [hd, if_false] at h
      rcases List.mem_cons.mp h with rfl | h
      · rw [hws] at hd; simp at hd
      · exact ih h hws

theorem mem_collapseWs_of_nonWs {c : Char} (hc : isJsWs c = false) :
    ∀ {b : Bool} {l : List Char}, c ∈ l → c ∈ collapseWs b l := by
  intro b l
  induction l generalizing b with
  | nil => intro h; cases h
  | cons d cs ih =>
    intro h
    rw [collapseWs]
    rcases List.mem_cons.mp h with rfl | h
    · simp only [hc, if_false]; exact List.mem_cons_self _ _
    · by_cases hd : isJsWs d
      · simp only [hd, if_true]
        cases b with
        | true => exact ih h
        | false => exact List.mem_cons_of_mem _ (ih h)
      · simp only [hd, if_false]
        exact List.mem_cons_of_mem _ (ih h)

theorem replaceNlSp_eq_of_noNl : ∀ {l : List Char}, '\n' ∉ l → replaceNlSp l = l := by
  intro l
  induction l using replaceNlSp.induct with
  | case1 => intro _; rfl
  | case2 d => intro _; rfl
  | case3 d e cs hde ih =>
    intro h
    exact absurd (hde.1 ▸ List.mem_cons_self d (e :: cs)) h
  | case4 d e cs hde ih =>
    intro h
    rw [replaceNlSp, if_neg hde, ih (fun hm => h (List.mem_cons_of_mem _ hm))]

theorem replaceSpNl_eq_of_noNl : ∀ {l : List Char}, '\n' ∉ l → replaceSpNl l = l := by
  intro l
  induction l using replaceSpNl.induct with
  | case1 => intro _; rfl
  | case2 d => intro _; rfl
  | case3 d e cs hde ih =>
    intro h
    exact absurd (hde.2 ▸ List.mem_cons_of_mem d (List.mem_cons_self e cs)) h
  | case4 d e cs hde ih =>
    intro h
    rw [replaceSpNl, if_neg hde, ih (fun hm => h (List.mem_cons_of_mem _ hm))]

theorem mem_dropTrail_subset {c : Char} : ∀ {l : List Char}, c ∈ dropTrail l → c ∈ l := by
  intro l
  induction l with
  | nil => intro h; simp [dropTrail] at h
  | cons d cs ih =>
    intro h
    rw [dropTrail] at h
    split at h
    · cases h
    · rcases List.mem_cons.mp h with rfl | h
      · exact List.mem_cons_self _ _
      · exact List.mem_cons_of_mem _ (ih h)

theorem mem_dropTrail_of_nonWs {c : Char} (hc : isJsWs c = false) :
    ∀ {l : List Char}, c ∈ l → c ∈ dropTrail l := by
  intro l
  induction l with
  | nil => intro h; cases h
  | cons d cs ih =>
    intro h
    rw [dropTrail]
    rcases List.mem_cons.mp h with rfl | h
    · split
      · next he => simp only [Bool.and_eq_true] at he; rw [hc] at he; simp at he
      · exact List.mem_cons_self _ _
    · split
      · next he =>
        simp only [Bool.and_eq_true, List.isEmpty_iff] at he
        have := ih h
        rw [he.1] at this
        cases this
      · exact List.mem_cons_of_mem _ (ih h)

theorem mem_trimWs_subset {c : Char} {l : List Char} (h : c ∈ trimWs l) : c ∈ l :=
  List.dropWhile_sublist isJsWs |>.mem (mem_dropTrail_subset h)

theorem mem_dropWhile_of_nonWs {c : Char} (hc : isJsWs c = false) :
    ∀ {l : List Char}, c ∈ l → c ∈ l.dropWhile isJsWs := by
  intro l
  induction l with
  | nil => intro h; cases h
  | cons d cs ih =>
    intro h
    rw [List.dropWhile_cons]
    rcases List.mem_cons.mp h with rfl | h
    · simp only [hc]; exact List.mem_cons_self _ _
    · split
      · exact ih h
      · exact List.mem_cons_of_mem _ h

theorem mem_trimWs_of_nonWs {c : Char} (hc : isJsWs c = false) {l : List Char}
    (h : c ∈ l) : c ∈ trimWs l :=
  mem_dropTrail_of_nonWs hc (mem_dropWhile_of_nonWs hc h)

theorem trimWs_ne_nil_iff {l : List Char} :
    trimWs l ≠ [] ↔ ∃ c ∈ l, isJsWs c = false := by
  constructor
  · intro h
    by_contra hall
    push_neg at hall
    apply h
    have hdw : l.dropWhile isJsWs = [] := by
      rw [List.dropWhile_eq_nil_iff]
      intro a ha
      have := hall a ha
      simpa using this
    rw [trimWs, hdw]
    rfl
  · rintro ⟨c, hc, hws⟩ hnil
    have := mem_trimWs_of_nonWs hws hc
    rw [hnil] at this
    cases this

theorem noNl_cleanedText (t : List Char) : '\n' ∉ cleanedText t := by
  intro h
  have h1 : '\n' ∈ replaceSpNl (replaceNlSp (collapseWs false (replaceCrLf t))) :=
    mem_trimWs_subset h
  have hno : '\n' ∉ collapseWs false (replaceCrLf t) := by
    intro hmem
    have := mem_collapseWs_ws_eq_space hmem (by decide)
    cases this
  rw [replaceNlSp_eq_of_noNl hno, replaceSpNl_eq_of_noNl hno] at h1
  exact hno h1

theorem ex_nonWs_cleanedText {t : List Char} (h : trimWs t ≠ []) :
    ∃ c ∈ cleanedText t, isJsWs c = false := by
  obtain ⟨c, hc, hws⟩ := trimWs_ne_nil_iff.mp h
  have h1 : c ∈ replaceCrLf t := mem_replaceCrLf_of_nonWs hws hc
  have h2 : c ∈ collapseWs false (replaceCrLf t) := mem_collapseWs_of_nonWs hws h1
  have hno : '\n' ∉ collapseWs false (replaceCrLf t) := by
    intro hmem
    have := mem_collapseWs_ws_eq_space hmem (by decide)
    cases this
  refine ⟨c, ?_, hws⟩
  unfold cleanedText
  rw [replaceNlSp_eq_of_noNl hno, replaceSpNl_eq_of_noNl hno]
  exact mem_trimWs_of_nonWs hws h2

theorem cleanedText_ne_nil {t : List Char} (h : trimWs t ≠ []) : cleanedText t ≠ [] := by
  obtain ⟨c, hc, _⟩ := ex_nonWs_cleanedText h
  intro hnil
  rw [hnil] at hc
  cases hc

theorem dropWhile_ws_idem (l : List Char) :
    (l.dropWhile isJsWs).dropWhile isJsWs = l.dropWhile isJsWs := by
  induction l with
  | nil => rfl
  | cons c cs ih =>
    rw [List.dropWhile_cons]
    split
    · exact ih
    · next h => rw [List.dropWhile_cons, if_neg h]

theorem dropTrail_cons_cases (c : Char) (cs : List Char) :
    dropTrail (c :: cs) = [] ∨ dropTrail (c :: cs) = c :: dropTrail cs := by
  rw [dropTrail]
  split
  · exact Or.inl rfl
  · exact Or.inr rfl

theorem dropTrail_idem (l : List Char) : dropTrail (dropTrail l) = dropTrail l := by
  induction l with
  | nil => rfl
  | cons c cs ih =>
    rw [dropTrail]
    split
    · rfl
    · next h =>
      rw [dropTrail, ih]
      rw [if_neg]
      intro hcontra
      exact h hcontra

theorem dropWhile_dropTrail {l : List Char} (hl : l.dropWhile isJsWs = l) :
    (dropTrail l).dropWhile isJsWs = dropTrail l := by
  cases l with
  | nil => rfl
  | cons c cs =>
    have hc : isJsWs c = false := by
      rw [List.dropWhile_cons] at hl
      by_contra hcb
      simp only [Bool.not_eq_false] at hcb
      rw [if_pos hcb] at hl
      have hsub : (cs.dropWhile isJsWs).length ≤ cs.length :=
        (List.dropWhile_sublist isJsWs).length_le
      have := congrArg List.length hl
      simp at this
      omega
    rcases dropTrail_cons_cases c cs with h | h
    · rw [h]; rfl
    · rw [h, List.dropWhile_cons, if_neg (by simp [hc])]

theorem trimWs_idem (l : List Char) : trimWs (trimWs l) = trimWs l := by
  unfold trimWs
  rw [dropWhile_dropTrail (dropWhile_ws_idem l), dropTrail_idem]

theorem trimWs_cleanedText (t : List Char) :
    trimWs (cleanedText t) = cleanedText t := by
  unfold cleanedText
  exact trimWs_idem _

theorem splitRunsAux_append_nonsep {p : Char → Bool} :
    ∀ {w : List Char}, (∀ c ∈ w, p c = false) → ∀ {cur l : List Char},
      splitRunsAux p cur (w ++ l) = splitRunsAux p (w.reverse ++ cur) l := by
  intro w
  induction w with
  | nil => intro _ cur l; simp
  | cons c cs ih =>
    intro h cur l
    rw [List.cons_append, splitRunsAux, if_neg]
    · rw [ih (fun d hd => h d (List.mem_cons_of_mem _ hd))]
      simp
    · rw [h c (List.mem_cons_self _ _)]
      simp

theorem splitRunsAux_of_nonsep {p : Char → Bool} {l : List Char}
    (h : ∀ c ∈ l, p c = false) : splitRunsAux p [] l = [l] := by
  have : splitRunsAux p [] (l ++ []) = splitRunsAux p (l.reverse ++ []) [] :=
    splitRunsAux_append_nonsep h
  rw [List.append_nil] at this
  rw [this, splitRunsAux]
  simp

theorem splitNl_of_noNl {l : List Char} (h : '\n' ∉ l) : splitNl l = [l] := by
  unfold splitNl
  apply splitRunsAux_of_nonsep
  intro c hc
  simp only [decide_eq_false_iff_not]
  intro rfl_eq
  exact h (rfl_eq ▸ hc)

/-- Under the `/\s+/ → " "` collapse, the cleaned text contains no newline, so
the `/\n+/` paragraph split always returns the whole cleaned text as the one
and only paragraph. -/
theorem paragraphs_cleanedText {t : List Char} (h : trimWs t ≠ []) :
    (splitNl (cleanedText t)).filter (fun p => ¬(trimWs p).isEmpty) =
      [cleanedText t] := by
  rw [splitNl_of_noNl (noNl_cleanedText t)]
  rw [List.filter_cons]
  rw [if_pos]
  · rfl
  · simp only [decide_eq_true_eq, List.isEmpty_iff]
    rw [trimWs_cleanedText]
    exact cleanedText_ne_nil h

theorem joinSp_singleton (w : List Char) : joinSp [w] = w := by
  simp [joinSp, List.intercalate]

theorem joinSp_cons_cons (w x : List Char) (ws : List (List Char)) :
    joinSp (w :: x :: ws) = w ++ ' ' :: joinSp (x :: ws) := by
  simp [joinSp, List.intercalate, List.intersperse_cons_cons]

theorem head_dropWhile_nonWs :
    ∀ {l : List Char} {c : Char} {tl : List Char},
      l.dropWhile isJsWs = c :: tl → isJsWs c = false := by
  intro l
  induction l with
  | nil => intro c tl h; cases h
  | cons d cs ih =>
    intro c tl h
    rw [List.dropWhile_cons] at h
    split at h
    · exact ih h
    · next hd =>
      obtain ⟨rfl, _⟩ := List.cons.inj h
      simpa using hd

theorem getLast_dropTrail_nonWs :
    ∀ {l : List Char} {d : Char}, (dropTrail l).getLast? = some d → isJsWs d = false := by
  intro l
  induction l with
  | nil => intro d h; cases h
  | cons c cs ih =>
    intro d h
    rw [dropTrail] at h
    split at h
    · cases h
    · next hcond =>
      rcases hr : dropTrail cs with _ | ⟨e, es⟩
      · rw [hr] at h
        rw [List.getLast?_singleton] at h
        obtain rfl := Option.some.inj h
        simp only [Bool.and_eq_true, List.isEmpty_iff] at hcond
        rw [hr] at hcond
        by_contra hws
        simp only [Bool.not_eq_false] at hws
        exact hcond ⟨rfl, hws⟩
      · rw [hr] at h
        rw [List.getLast?_cons_cons] at h
        rw [← hr] at h
        exact ih h

theorem head_trimWs_nonWs {l : List Char} {c : Char} {tl : List Char}
    (h : trimWs l = c :: tl) : isJsWs c = false := by
  unfold trimWs at h
  rcases hd : l.dropWhile isJsWs with _ | ⟨e, es⟩
  · rw [hd] at h; cases h
  · rw [hd] at h
    rcases dropTrail_cons_cases e es with h2 | h2
    · rw [h2] at h; cases h
    · rw [h2] at h
      obtain ⟨rfl, _⟩ := List.cons.inj h
      exact head_dropWhile_nonWs hd

theorem getLast_trimWs_nonWs {l : List Char} {d : Char}
    (h : (trimWs l).getLast? = some d) : isJsWs d = false :=
  getLast_dropTrail_nonWs h

/-- Joint nonemptiness statement for the two split states: if the current
segment is nonempty or the input starts with a non-separator, and the input
ends with a non-separator, no empty segment is produced. -/
theorem splitRuns_ne_nil (p : Char → Bool) :
    ∀ n : Nat, ∀ l : List Char, l.length ≤ n →
      ((∀ cur : List Char,
          (cur ≠ [] ∨ ∃ hd tl, l = hd :: tl ∧ p hd = false) →
          (∀ d, l.getLast? = some d → p d = false) →
          [] ∉ splitRunsAux p cur l) ∧
        (l ≠ [] → (∀ d, l.getLast? = some d → p d = false) →
          [] ∉ splitRunsSep p l)) := by
  intro n
  induction n with
  | zero =>
    intro l hl
    have : l = [] := List.length_eq_zero.mp (Nat.le_zero.mp hl)
    subst this
    constructor
    · intro cur hA _ hmem
      rw [splitRunsAux] at hmem
      rcases hA with hA | ⟨hd, tl, habs, _⟩
      · exact hA (List.reverse_eq_nil_iff.mp (List.mem_singleton.mp hmem).symm)
      · cases habs
    · intro habs; exact absurd rfl habs
  | succ m ih =>
    intro l hl
    constructor
    · intro cur hA hB hmem
      cases l with
      | nil =>
        rw [splitRunsAux] at hmem
        rcases hA with hA | ⟨hd, tl, habs, _⟩
        · exact hA (List.reverse_eq_nil_iff.mp (List.mem_singleton.mp hmem).symm)
        · cases habs
      | cons c cs =>
        rw [splitRunsAux] at hmem
        by_cases hpc : p c = true
        · rw [if_pos hpc] at hmem
          have hcur : cur ≠ [] := by
            rcases hA with hA | ⟨hd, tl, heq, hhd⟩
            · exact hA
            · obtain ⟨rfl, _⟩ := List.cons.inj heq
              rw [hpc] at hhd; cases hhd
          rcases List.mem_cons.mp hmem with hrev | hmem2
          · exact hcur (List.reverse_eq_nil_iff.mp hrev.symm)
          · cases cs with
            | nil =>
              have := hB c (by simp)
              rw [hpc] at this; cases this
            | cons e es =>
              have hsz : (e :: es).length ≤ m := by
                simp at hl ⊢; omega
              exact (ih (e :: es) hsz).2 (by simp)
                (fun d hd => hB d (by rw [List.getLast?_cons_cons]; exact hd)) hmem2
        · rw [if_neg hpc] at hmem
          have hsz : cs.length ≤ m := by simp at hl; omega
          refine (ih cs hsz).1 (c :: cur) (Or.inl (by simp)) ?_ hmem
          intro d hd
          cases cs with
          | nil => cases hd
          | cons e es =>
            exact hB d (by rw [List.getLast?_cons_cons]; exact hd)
    · intro hne hB hmem
      cases l with
      | nil => exact absurd rfl hne
      | cons c cs =>
        rw [splitRunsSep] at hmem
        by_cases hpc : p c = true
        · rw [if_pos hpc] at hmem
          cases cs with
          | nil =>
            have := hB c (by simp)
            rw [hpc] at this; cases this
          | cons e es =>
            have hsz : (e :: es).length ≤ m := by simp at hl ⊢; omega
            exact (ih (e :: es) hsz).2 (by simp)
              (fun d hd => hB d (by rw [List.getLast?_cons_cons]; exact hd)) hmem
        · rw [if_neg hpc] at hmem
          have hsz : cs.length ≤ m := by simp at hl; omega
          refine (ih cs hsz).1 [c] (Or.inl (by simp)) ?_ hmem
          intro d hd
          cases cs with
          | nil => cases hd
          | cons e es =>
            exact hB d (by rw [List.getLast?_cons_cons]; exact hd)

/-- Joint statement: every character of every produced segment is a
non-separator, provided the accumulated current segment is made of
non-separators. -/
theorem splitRuns_nonsep (p : Char → Bool) :
    ∀ n : Nat, ∀ l : List Char, l.length ≤ n →
      ((∀ cur : List Char, (∀ c ∈ cur, p c = false) →
          ∀ w ∈ splitRunsAux p cur l, ∀ c ∈ w, p c = false) ∧
        (∀ w ∈ splitRunsSep p l, ∀ c ∈ w, p c = false)) := by
  intro n
  induction n with
  | zero =>
    intro l hl
    have : l = [] := List.length_eq_zero.mp (Nat.le_zero.mp hl)
    subst this
    constructor
    · intro cur hcur w hw c hc
      rw [splitRunsAux] at hw
      rcases List.mem_singleton.mp hw with rfl
      exact hcur c (List.mem_reverse.mp hc)
    · intro w hw c hc
      rw [splitRunsSep] at hw
      rcases List.mem_singleton.mp hw with rfl
      cases hc
  | succ m ih =>
    intro l hl
    constructor
    · intro cur hcur w hw c hc
      cases l with
      | nil =>
        rw [splitRunsAux] at hw
        rcases List.mem_singleton.mp hw with rfl
        exact hcur c (List.mem_reverse.mp hc)
      | cons d cs =>
        rw [splitRunsAux] at hw
        by_cases hpd : p d = true
        · rw [if_pos hpd] at hw
          rcases List.mem_cons.mp hw with rfl | hw2
          · exact hcur c (List.mem_reverse.mp hc)
          · exact (ih cs (by simp at hl; omega)).2 w hw2 c hc
        · rw [if_neg hpd] at hw
          refine (ih cs (by simp at hl; omega)).1 (d :: cur) ?_ w hw c hc
          intro e he
          rcases List.mem_cons.mp he with rfl | he2
          · simpa using hpd
          · exact hcur e he2
    · intro w hw c hc
      cases l with
      | nil =>
        rw [splitRunsSep] at hw
        rcases List.mem_singleton.mp hw with rfl
        cases hc
      | cons d cs =>
        rw [splitRunsSep] at hw
        by_cases hpd : p d = true
        · rw [if_pos hpd] at hw
          exact (ih cs (by simp at hl; omega)).2 w hw c hc
        · rw [if_neg hpd] at hw
          refine (ih cs (by simp at hl; omega)).1 [d] ?_ w hw c hc
          intro e he
          rcases List.mem_singleton.mp he with rfl
          simpa using hpd

/-- Every word produced by `wsSplit` is whitespace-free. -/
theorem wsSplit_nonWs {l : List Char} {w : List Char} (hw : w ∈ wsSplit l)
    {c : Char} (hc : c ∈ w) : isJsWs c = false :=
  (splitRuns_nonsep isJsWs l.length l le_rfl).1 [] (by simp) w hw c hc

/-- On a trimmed nonempty string, `wsSplit` produces no empty word. -/
theorem wsSplit_ne_nil {l : List Char} (hne : trimWs l = l) (h0 : l ≠ []) :
    [] ∉ wsSplit l := by
  rcases hl : l with _ | ⟨c, cs⟩
  · exact absurd hl h0
  · refine (splitRuns_ne_nil isJsWs (c :: cs).length (c :: cs) le_rfl).1 [] ?_ ?_
    · refine Or.inr ⟨c, cs, rfl, ?_⟩
      exact head_trimWs_nonWs (by rw [hl] at hne; exact hne)
    · intro d hd
      have hgl : (trimWs l).getLast? = some d := by
        rw [hne, hl]
        exact hd
      exact getLast_trimWs_nonWs hgl

/-- Round trip: splitting a single-space join of nonempty whitespace-free
words on whitespace recovers exactly those words. -/
theorem wsSplit_joinSp :
    ∀ {ws : List (List Char)}, ws ≠ [] → (∀ w ∈ ws, w ≠ []) →
      (∀ w ∈ ws, ∀ c ∈ w, isJsWs c = false) → wsSplit (joinSp ws) = ws := by
  intro ws
  induction ws with
  | nil => intro h; exact absurd rfl h
  | cons w ws' ih =>
    intro _ hne hnonsep
    cases ws' with
    | nil =>
      rw [joinSp_singleton]
      unfold wsSplit
      exact splitRunsAux_of_nonsep (hnonsep w (List.mem_cons_self _ _))
    | cons x ws'' =>
      rw [joinSp_cons_cons]
      unfold wsSplit
      rw [splitRunsAux_append_nonsep (hnonsep w (List.mem_cons_self _ _))]
      rw [splitRunsAux]
      rw [if_pos (by decide : isJsWs ' ' = true)]
      simp only [List.append_nil, List.reverse_reverse]
      congr 1
      obtain ⟨d, x', hx⟩ : ∃ d x', x = d :: x' := by
        rcases hxs : x with _ | ⟨d, x'⟩
        · exact absurd hxs (hne x (by simp))
        · exact ⟨d, x', rfl⟩
      have hd : isJsWs d = false := hnonsep x (by simp) d (by rw [hx]; simp)
      obtain ⟨tl, htl⟩ : ∃ tl, joinSp (x :: ws'') = d :: tl := by
        cases ws'' with
        | nil => exact ⟨x', by rw [joinSp_singleton, hx]⟩
        | cons y ys =>
          refine ⟨x' ++ ' ' :: joinSp (y :: ys), ?_⟩
          rw [joinSp_cons_cons, hx, List.cons_append]
      rw [htl, splitRunsSep, if_neg (by simp [hd])]
      have hrw : splitRunsAux isJsWs [d] tl = wsSplit (joinSp (x :: ws'')) := by
        rw [htl]
        unfold wsSplit
        rw [splitRunsAux, if_neg (by simp [hd])]
      rw [hrw]
      exact ih (by simp) (fun v hv => hne v (List.mem_cons_of_mem _ hv))
        (fun v hv => hnonsep v (List.mem_cons_of_mem _ hv))

/-! ## Lemmas about the sliding-window loop -/

theorem slidingAux_isSome (pw : List (List Char)) (cs ov : Nat) (hstep : ov < cs) :
    ∀ fuel i idx, pw.length - i < fuel → (slidingAux pw cs ov fuel i idx).isSome := by
  intro fuel
  induction fuel with
  | zero => intro i idx h; omega
  | succ m ih =>
    intro i idx h
    rw [slidingAux]
    by_cases hi : i < pw.length
    · rw [if_pos hi]
      by_cases hbreak : pw.length ≤ i + cs
      · rw [if_pos hbreak]; rfl
      · rw [if_neg hbreak]
        have h2 := ih (i + (cs - ov)) (idx + 1) (by omega)
        rcases hres : slidingAux pw cs ov m (i + (cs - ov)) (idx + 1) with _ | l
        · rw [hres] at h2; simp at h2
        · simp
    · rw [if_neg hi]; rfl

theorem slidingAux_ne_nil {pw : List (List Char)} {cs ov : Nat} :
    ∀ {fuel i idx l}, slidingAux pw cs ov fuel i idx = some l →
      i < pw.length → l ≠ [] := by
  intro fuel i idx l h hi
  cases fuel with
  | zero => cases h
  | succ m =>
    rw [slidingAux, if_pos hi] at h
    by_cases hbreak : pw.length ≤ i + cs
    · rw [if_pos hbreak] at h
      obtain rfl := Option.some.inj h
      simp
    · rw [if_neg hbreak] at h
      rcases hres : slidingAux pw cs ov m (i + (cs - ov)) (idx + 1) with _ | l'
      · rw [hres] at h; cases h
      · rw [hres] at h
        obtain rfl := Option.some.inj h
        simp

theorem slidingAux_map_chunkIndex {pw : List (List Char)} {cs ov : Nat} :
    ∀ {fuel i idx l}, slidingAux pw cs ov fuel i idx = some l →
      l.map Chunk.chunkIndex = List.range' idx l.length := by
  intro fuel
  induction fuel with
  | zero => intro i idx l h; cases h
  | succ m ih =>
    intro i idx l h
    rw [slidingAux] at h
    by_cases hi : i < pw.length
    · rw [if_pos hi] at h
      by_cases hbreak : pw.length ≤ i + cs
      · rw [if_pos hbreak] at h
        obtain rfl := Option.some.inj h
        simp [List.range'_one]
      · rw [if_neg hbreak] at h
        rcases hres : slidingAux pw cs ov m (i + (cs - ov)) (idx + 1) with _ | l'
        · rw [hres] at h; cases h
        · rw [hres] at h
          obtain rfl := Option.some.inj h
          simp only [List.map_cons, List.length_cons]
          rw [ih hres, List.range'_succ]
    · rw [if_neg hi] at h
      obtain rfl := Option.some.inj h
      simp

theorem slidingAux_content {pw : List (List Char)} {cs ov : Nat} :
    ∀ {fuel i idx l}, slidingAux pw cs ov fuel i idx = some l →
      ∀ c ∈ l, ∃ i', i' < pw.length ∧
        c.content = joinSp ((pw.drop i').take cs) ∧ c.pageNumber = 0 := by
  intro fuel
  induction fuel with
  | zero => intro i idx l h; cases h
  | succ m ih =>
    intro i idx l h c hc
    rw [slidingAux] at h
    by_cases hi : i < pw.length
    · rw [if_pos hi] at h
      by_cases hbreak : pw.length ≤ i + cs
      · rw [if_pos hbreak] at h
        obtain rfl := Option.some.inj h
        rcases List.mem_singleton.mp hc with rfl
        exact ⟨i, hi, rfl, rfl⟩
      · rw [if_neg hbreak] at h
        rcases hres : slidingAux pw cs ov m (i + (cs - ov)) (idx + 1) with _ | l'
        · rw [hres] at h; cases h
        · rw [hres] at h
          obtain rfl := Option.some.inj h
          rcases List.mem_cons.mp hc with rfl | hc'
          · exact ⟨i, hi, rfl, rfl⟩
          · exact ih hres c hc'
    · rw [if_neg hi] at h
      obtain rfl := Option.some.inj h
      cases hc

theorem slidingAux_length {pw : List (List Char)} {cs ov : Nat} (hstep : ov < cs) :
    ∀ {fuel i idx l}, slidingAux pw cs ov fuel i idx = some l → i < pw.length →
      l.length = (pw.length - i - cs + (cs - ov - 1)) / (cs - ov) + 1 := by
  intro fuel
  induction fuel with
  | zero => intro i idx l h; cases h
  | succ m ih =>
    intro i idx l h hi
    rw [slidingAux, if_pos hi] at h
    by_cases hbreak : pw.length ≤ i + cs
    · rw [if_pos hbreak] at h
      obtain rfl := Option.some.inj h
      have h0 : pw.length - i - cs = 0 := by omega
      rw [h0, Nat.zero_add, Nat.div_eq_of_lt (by omega)]
      simp
    · rw [if_neg hbreak] at h
      rcases hres : slidingAux pw cs ov m (i + (cs - ov)) (idx + 1) with _ | l'
      · rw [hres] at h; cases h
      · rw [hres] at h
        obtain rfl := Option.some.inj h
        have hlt : i + (cs - ov) < pw.length := by omega
        have hIH := ih hres hlt
        simp only [List.length_cons]
        rw [hIH]
        have hd1 : 1 ≤ pw.length - i - cs := by omega
        set s := cs - ov with hs
        have hspos : 0 < s := by omega
        by_cases hds : pw.length - i - cs ≤ s
        · have e1 : pw.length - (i + s) - cs = 0 := by omega
          rw [e1, Nat.zero_add, Nat.div_eq_of_lt (by omega)]
          have : (pw.length - i - cs + (s - 1)) / s = 1 := by
            apply Nat.div_eq_of_lt_le
            · omega
            · omega
          omega
        · have e2 : pw.length - i - cs + (s - 1) =
              (pw.length - (i + s) - cs + (s - 1)) + s := by omega
          rw [e2, Nat.add_div_right _ hspos]

theorem slidingAux_getLast {pw : List (List Char)} {cs ov : Nat} :
    ∀ {fuel i idx l}, slidingAux pw cs ov fuel i idx = some l → i < pw.length →
      ∃ c i', l.getLast? = some c ∧ i' < pw.length ∧ pw.length ≤ i' + cs ∧
        c.content = joinSp (pw.drop i') := by
  intro fuel
  induction fuel with
  | zero => intro i idx l h; cases h
  | succ m ih =>
    intro i idx l h hi
    rw [slidingAux, if_pos hi] at h
    by_cases hbreak : pw.length ≤ i + cs
    · rw [if_pos hbreak] at h
      obtain rfl := Option.some.inj h
      refine ⟨_, i, List.getLast?_singleton _, hi, hbreak, ?_⟩
      have : ((pw.drop i).take cs) = pw.drop i :=
        List.take_of_length_le (by simp; omega)
      rw [this]
    · rw [if_neg hbreak] at h
      rcases hres : slidingAux pw cs ov m (i + (cs - ov)) (idx + 1) with _ | l'
      · rw [hres] at h; cases h
      · rw [hres] at h
        obtain rfl := Option.some.inj h
        have hlt : i + (cs - ov) < pw.length := by omega
        obtain ⟨c, i', hlast, hi', hcov, hcontent⟩ := ih hres hlt
        refine ⟨c, i', ?_, hi', hcov, hcontent⟩
        have hl' : l' ≠ [] := slidingAux_ne_nil hres hlt
        rcases l' with _ | ⟨e, es⟩
        · exact absurd rfl hl'
        · rw [List.getLast?_cons_cons]
          exact hlast

theorem joinNlNl_singleton (p : List Char) : joinNlNl [p] = p := by
  simp [joinNlNl, List.intercalate]

/-- Characterization of `chunkText` on non-blank input: because the whitespace
collapse removes every newline before the paragraph split, the paragraph list
is always the single cleaned text; if its word count fits in `chunkSize` the
result is one chunk whose content is the cleaned text, otherwise it is the
sliding window over its words. -/

theorem chunkText_eq {t : List Char} (h : trimWs t ≠ []) (cs ov : Nat) :
    chunkText t cs ov =
      if (wsSplit (cleanedText t)).length ≤ cs
      then some [⟨cleanedText t, 0, 0⟩]
      else slidingAux (wsSplit (cleanedText t)) cs ov
             ((wsSplit (cleanedText t)).length + 1) 0 0 := by
  have htrim : trimWs (cleanedText t) = cleanedText t := trimWs_cleanedText t
  have hclne : cleanedText t ≠ [] := cleanedText_ne_nil h
  simp only [chunkText]
  rw [if_neg (by simp only [List.isEmpty_iff]; exact h)]
  rw [paragraphs_cleanedText h]
  rw [chunkLoop]
  simp only [stepParagraph, htrim, chunkLoop, List.isEmpty_nil, if_true, not_true,
    and_false, if_false, List.nil_append, Nat.zero_add]
  by_cases hlt : cs < (wsSplit (cleanedText t)).length
  · rw [if_pos hlt, if_neg (by omega)]
    rcases hres : slidingAux (wsSplit (cleanedText t)) cs ov
        ((wsSplit (cleanedText t)).length + 1) 0 0 with _ | ws
    · rfl
    · have hwsne : ws ≠ [] := slidingAux_ne_nil hres (by omega)
      simp only [List.isEmpty_nil, if_true]
      rw [if_neg (by rintro ⟨h1, _⟩; exact hwsne (List.isEmpty_iff.mp h1))]
  · rw [if_neg hlt, if_pos (by omega)]
    dsimp only
    simp only [List.isEmpty_cons, List.isEmpty_nil, List.nil_append, joinNlNl_singleton,
      Bool.false_eq_true, false_and, if_false]

theorem mem_joinSp {c : Char} :
    ∀ {ws : List (List Char)}, c ∈ joinSp ws → c = ' ' ∨ ∃ w ∈ ws, c ∈ w := by
  intro ws
  induction ws with
  | nil => intro hc; simp [joinSp, List.intercalate] at hc
  | cons w ws' ih =>
    intro hc
    cases ws' with
    | nil =>
      rw [joinSp_singleton] at hc
      exact Or.inr ⟨w, List.mem_cons_self _ _, hc⟩
    | cons x ws'' =>
      rw [joinSp_cons_cons] at hc
      rcases List.mem_append.mp hc with hc | hc
      · exact Or.inr ⟨w, List.mem_cons_self _ _, hc⟩
      · rcases List.mem_cons.mp hc with rfl | hc
        · exact Or.inl rfl
        · rcases ih hc with hsp | ⟨v, hv, hcv⟩
          · exact Or.inl hsp
          · exact Or.inr ⟨v, List.mem_cons_of_mem _ hv, hcv⟩

/-- The words of the cleaned text: each is nonempty and whitespace-free. -/
theorem cleanedWords_sound {t : List Char} (h : trimWs t ≠ []) :
    (∀ w ∈ wsSplit (cleanedText t), w ≠ []) ∧
      (∀ w ∈ wsSplit (cleanedText t), ∀ c ∈ w, isJsWs c = false) := by
  constructor
  · intro w hw hwnil
    subst hwnil
    exact wsSplit_ne_nil (trimWs_cleanedText t) (cleanedText_ne_nil h) hw
  · intro w hw c hc
    exact wsSplit_nonWs hw hc

/-- Word count of a sliding-window chunk content: re-splitting the joined
slice recovers the slice. -/
theorem wsSplit_window {t : List Char} (h : trimWs t ≠ []) {cs : Nat}
    (hcs : 1 ≤ cs) {i' : Nat} (hi' : i' < (wsSplit (cleanedText t)).length) :
    wsSplit (joinSp (((wsSplit (cleanedText t)).drop i').take cs)) =
      ((wsSplit (cleanedText t)).drop i').take cs := by
  obtain ⟨hne, hnonws⟩ := cleanedWords_sound h
  apply wsSplit_joinSp
  · intro hnil
    have hdropne : (wsSplit (cleanedText t)).drop i' ≠ [] := by
      intro hd
      rw [List.drop_eq_nil_iff] at hd
      omega
    rcases hd : (wsSplit (cleanedText t)).drop i' with _ | ⟨w, ws⟩
    · exact hdropne hd
    · rw [hd] at hnil
      rcases cs with _ | cs'
      · omega
      · simp [List.take_succ_cons] at hnil
  · intro w hw
    exact hne w (List.mem_of_mem_drop (List.mem_of_mem_take hw))
  · intro w hw
    exact hnonws w (List.mem_of_mem_drop (List.mem_of_mem_take hw))

/-! ## Claim theorems for the chunker -/

/-- **C1** (code bug): the claim says that for two newline-separated
paragraphs fitting one chunk, whitespace normalization keeps the
paragraph-breaking newlines and the emitted chunk is the paragraphs joined by
a double newline.  In the code, `.replace(/\s+/g, " ")` runs over the whole
text *including newlines* before the newline-preserving steps, so the blank
line between "aa bb" and "cc dd" becomes a single space: the one emitted
chunk has content `"aa bb cc dd"`, not the double-newline join
`"aa bb\n\ncc dd"` the claim requires. -/
theorem chunkText_collapses_paragraph_newlines :
    chunkText ("aa bb\n\ncc dd".toList) 500 50 =
      some [⟨"aa bb cc dd".toList, 0, 0⟩] ∧
    "aa bb cc dd".toList ≠ joinNlNl ["aa bb".toList, "cc dd".toList] := by
  constructor
  · rfl
  · decide

/-- **C4**: `chunkText` (default `chunkSize = 500`, `overlap = 50`) returns
the empty sequence exactly when the input is empty or whitespace-only; on any
other text it returns a non-empty sequence whose `chunkIndex` values are
`0, 1, 2, …` in order (a contiguous strictly increasing sequence from 0). -/
theorem chunkText_empty_iff_blank_and_indices_contiguous (t : List Char) :
    (chunkText t 500 50 = some [] ↔ trimWs t = []) ∧
    (trimWs t ≠ [] → ∃ l, chunkText t 500 50 = some l ∧ l ≠ [] ∧
      l.map Chunk.chunkIndex = List.range l.length) := by
  have hmain : trimWs t ≠ [] → ∃ l, chunkText t 500 50 = some l ∧ l ≠ [] ∧
      l.map Chunk.chunkIndex = List.range l.length := by
    intro h
    rw [chunkText_eq h 500 50]
    by_cases hle : (wsSplit (cleanedText t)).length ≤ 500
    · rw [if_pos hle]
      exact ⟨_, rfl, by simp, by simp [List.range_succ]⟩
    · rw [if_neg hle]
      have hiss := slidingAux_isSome (wsSplit (cleanedText t)) 500 50
        (by omega) ((wsSplit (cleanedText t)).length + 1) 0 0 (by omega)
      rcases hres : slidingAux (wsSplit (cleanedText t)) 500 50
          ((wsSplit (cleanedText t)).length + 1) 0 0 with _ | ws
      · rw [hres] at hiss; simp at hiss
      · refine ⟨ws, rfl, slidingAux_ne_nil hres (by omega), ?_⟩
        rw [slidingAux_map_chunkIndex hres, List.range_eq_range']
  refine ⟨⟨?_, ?_⟩, hmain⟩
  · intro hsome
    by_contra hne
    obtain ⟨l, hl, hlne, _⟩ := hmain hne
    rw [hl] at hsome
    exact hlne (Option.some.inj hsome)
  · intro htr
    simp [chunkText, htr]

/-- Witness for C4 at the concrete text `"hi there"`. -/
theorem chunkText_empty_iff_blank_and_indices_contiguous_witness :
    trimWs "hi there".toList ≠ [] ∧
    (∃ l, chunkText "hi there".toList 500 50 = some l ∧ l ≠ [] ∧
      l.map Chunk.chunkIndex = List.range l.length) :=
  ⟨by decide,
   (chunkText_empty_iff_blank_and_indices_contiguous "hi there".toList).2 (by decide)⟩

/-- **C5**: a single (effective) paragraph of `W > 500` words is split with
`chunkSize = 500, overlap = 50` into exactly `(W - 500 + 449) / 450 + 1`
sliding windows — i.e. `ceil((W - 500) / 450) + 1` — and the last window's
content is the join of a full suffix of the word list: it ends exactly at
word `W`, no word past the end is skipped, and the loop stops once a window
covers the last word. -/
theorem chunkText_sliding_window_count_and_last (t : List Char)
    (h : trimWs t ≠ []) (hW : 500 < (wsSplit (cleanedText t)).length) :
    ∃ l, chunkText t 500 50 = some l ∧
      l.length = ((wsSplit (cleanedText t)).length - 500 + 449) / 450 + 1 ∧
      ∃ c i', l.getLast? = some c ∧ i' < (wsSplit (cleanedText t)).length ∧
        (wsSplit (cleanedText t)).length ≤ i' + 500 ∧
        c.content = joinSp ((wsSplit (cleanedText t)).drop i') := by
  rw [chunkText_eq h 500 50, if_neg (by omega)]
  have hiss := slidingAux_isSome (wsSplit (cleanedText t)) 500 50
    (by omega) ((wsSplit (cleanedText t)).length + 1) 0 0 (by omega)
  rcases hres : slidingAux (wsSplit (cleanedText t)) 500 50
      ((wsSplit (cleanedText t)).length + 1) 0 0 with _ | ws
  · rw [hres] at hiss; simp at hiss
  · refine ⟨ws, rfl, ?_, ?_⟩
    · have hlen := slidingAux_length (show (50:Nat) < 500 by omega) hres (by omega)
      rw [hlen]
      norm_num
    · obtain ⟨c, i', hlast, hi', hcov, hcontent⟩ := slidingAux_getLast hres (by omega)
      exact ⟨c, i', hlast, hi', hcov, hcontent⟩

/-! Auxiliary facts about the concrete 501-word witness text
`joinSp (List.replicate 501 ['a'])` = `"a a … a"`, established symbolically
(the text is too long for kernel evaluation). -/

theorem aWords_head (n : Nat) :
    ∃ tl, joinSp (List.replicate (n + 1) ['a']) = 'a' :: tl := by
  cases n with
  | zero => exact ⟨[], rfl⟩
  | succ m =>
    rw [List.replicate_succ, List.replicate_succ, joinSp_cons_cons]
    exact ⟨' ' :: joinSp (['a'] :: List.replicate m ['a']), rfl⟩

theorem mem_aWords {c : Char} {n : Nat}
    (hc : c ∈ joinSp (List.replicate n ['a'])) : c = ' ' ∨ c = 'a' := by
  rcases mem_joinSp hc with h | ⟨w, hw, hcw⟩
  · exact Or.inl h
  · have := List.eq_of_mem_replicate hw
    subst this
    rcases List.mem_singleton.mp hcw with rfl
    exact Or.inr rfl

theorem replaceCrLf_eq_of_noCr : ∀ {l : List Char}, '\r' ∉ l → replaceCrLf l = l := by
  intro l
  induction l using replaceCrLf.induct with
  | case1 => intro _; rfl
  | case2 d => intro _; rfl
  | case3 d e cs hde ih =>
    intro h
    exact absurd (hde.1 ▸ List.mem_cons_self d (e :: cs)) h
  | case4 d e cs hde ih =>
    intro h
    rw [replaceCrLf, if_neg hde, ih (fun hm => h (List.mem_cons_of_mem _ hm))]

theorem collapse_aWords : ∀ n : Nat,
    collapseWs false (joinSp (List.replicate (n + 1) ['a'])) =
      joinSp (List.replicate (n + 1) ['a']) := by
  intro n
  induction n with
  | zero => rfl
  | succ m ih =>
    obtain ⟨tl, htl⟩ := aWords_head m
    rw [List.replicate_succ, List.replicate_succ, joinSp_cons_cons]
    rw [← List.replicate_succ]
    show collapseWs false ('a' :: ' ' :: joinSp (List.replicate (m + 1) ['a'])) = _
    rw [collapseWs, if_neg (by decide)]
    rw [collapseWs, if_pos (by decide)]
    have hTJ : collapseWs true (joinSp (List.replicate (m + 1) ['a'])) =
        collapseWs false (joinSp (List.replicate (m + 1) ['a'])) := by
      rw [htl, collapseWs, collapseWs, if_neg (by decide), if_neg (by decide)]
    rw [hTJ, ih]
    rfl

theorem getLast_aWords : ∀ n : Nat,
    (joinSp (List.replicate (n + 1) ['a'])).getLast? = some 'a' := by
  intro n
  induction n with
  | zero => rfl
  | succ m ih =>
    obtain ⟨tl, htl⟩ := aWords_head m
    rw [List.replicate_succ, List.replicate_succ, joinSp_cons_cons]
    rw [← List.replicate_succ]
    show ('a' :: ' ' :: joinSp (List.replicate (m + 1) ['a'])).getLast? = _
    rw [List.getLast?_cons_cons, htl, List.getLast?_cons_cons, ← htl, ih]

theorem dropTrail_eq_self :
    ∀ {l : List Char}, (∀ d, l.getLast? = some d → isJsWs d = false) →
      dropTrail l = l := by
  intro l
  induction l with
  | nil => intro _; rfl
  | cons c cs ih =>
    intro h
    cases cs with
    | nil =>
      rw [dropTrail]
      rw [if_neg]
      · rfl
      · have := h c rfl
        simp [this, dropTrail]
    | cons e es =>
      have ihr : dropTrail (e :: es) = e :: es :=
        ih (fun d hd => h d (by rw [List.getLast?_cons_cons]; exact hd))
      rw [dropTrail, ihr]
      rw [if_neg (by simp)]

theorem trimWs_aWords (n : Nat) :
    trimWs (joinSp (List.replicate (n + 1) ['a'])) =
      joinSp (List.replicate (n + 1) ['a']) := by
  obtain ⟨tl, htl⟩ := aWords_head n
  unfold trimWs
  rw [htl, List.dropWhile_cons, if_neg (by decide), ← htl]
  exact dropTrail_eq_self (fun d hd => by
    rw [getLast_aWords n] at hd
    obtain rfl := Option.some.inj hd
    decide)

theorem cleanedText_aWords (n : Nat) :
    cleanedText (joinSp (List.replicate (n + 1) ['a'])) =
      joinSp (List.replicate (n + 1) ['a']) := by
  have hnoCr : '\r' ∉ joinSp (List.replicate (n + 1) ['a']) := by
    intro hm
    rcases mem_aWords hm with h | h <;> cases h
  have hnoNl : '\n' ∉ joinSp (List.replicate (n + 1) ['a']) := by
    intro hm
    rcases mem_aWords hm with h | h <;> cases h
  unfold cleanedText
  rw [replaceCrLf_eq_of_noCr hnoCr, collapse_aWords,
    replaceNlSp_eq_of_noNl hnoNl, replaceSpNl_eq_of_noNl hnoNl]
  exact trimWs_aWords n

theorem wsSplit_aWords (n : Nat) :
    wsSplit (joinSp (List.replicate (n + 1) ['a'])) = List.replicate (n + 1) ['a'] := by
  apply wsSplit_joinSp
  · simp
  · intro w hw
    have := List.eq_of_mem_replicate hw
    subst this
    simp
  · intro w hw c hc
    have := List.eq_of_mem_replicate hw
    subst this
    rcases List.mem_singleton.mp hc with rfl
    decide

/-- Witness for C5 at a concrete 501-word paragraph `"a a … a"`. -/
theorem chunkText_sliding_window_count_and_last_witness :
    ∃ l, chunkText (joinSp (List.replicate 501 ['a'])) 500 50 = some l ∧
      l.length = ((wsSplit (cleanedText (joinSp (List.replicate 501 ['a'])))).length
          - 500 + 449) / 450 + 1 ∧
      ∃ c i', l.getLast? = some c ∧
        i' < (wsSplit (cleanedText (joinSp (List.replicate 501 ['a'])))).length ∧
        (wsSplit (cleanedText (joinSp (List.replicate 501 ['a'])))).length ≤ i' + 500 ∧
        c.content =
          joinSp ((wsSplit (cleanedText (joinSp (List.replicate 501 ['a'])))).drop i') := by
  have h1 : trimWs (joinSp (List.replicate 501 ['a'])) ≠ [] := by
    rw [trimWs_aWords 500]
    obtain ⟨tl, htl⟩ := aWords_head 500
    rw [htl]
    simp
  have h2 : 500 < (wsSplit (cleanedText (joinSp (List.replicate 501 ['a'])))).length := by
    rw [cleanedText_aWords 500, wsSplit_aWords 500, List.length_replicate]
    omega
  exact chunkText_sliding_window_count_and_last _ h1 h2

/-- **C6**: for every text and every `chunkSize > overlap ≥ 0`, `chunkText`
terminates (the model returns `none` exactly on the divergence of the
JavaScript loop, so termination is `isSome`): with a positive step
`chunkSize - overlap` every sliding-window loop finishes within
`words.length + 1` iterations, and the paragraph loop is a fold over a finite
list. -/
theorem chunkText_terminates (t : List Char) (cs ov : Nat) (hov : ov < cs) :
    (chunkText t cs ov).isSome := by
  by_cases h : trimWs t = []
  · simp [chunkText, h]
  · rw [chunkText_eq h cs ov]
    by_cases hle : (wsSplit (cleanedText t)).length ≤ cs
    · rw [if_pos hle]; rfl
    · rw [if_neg hle]
      exact slidingAux_isSome (wsSplit (cleanedText t)) cs ov hov _ 0 0 (by omega)

/-- Witness for C6 at `chunkSize = 3, overlap = 1` on a 4-word text. -/
theorem chunkText_terminates_witness :
    (chunkText "w1 w2 w3 w4".toList 3 1).isSome :=
  chunkText_terminates "w1 w2 w3 w4".toList 3 1 (by decide)

/-- **C7**: for `chunkSize > overlap ≥ 0`, no chunk returned by `chunkText`
has a word count exceeding `chunkSize` (the claim's allowance for oversized
single paragraphs is never needed: oversized paragraphs are split into
windows of at most `chunkSize` words).  Word count is measured the way the
source counts words: `content.split(/\s+/).length`. -/
theorem chunkText_word_count_bounded (t : List Char) (cs ov : Nat) (hov : ov < cs)
    {l : List Chunk} (hl : chunkText t cs ov = some l) :
    ∀ c ∈ l, (wsSplit c.content).length ≤ cs := by
  by_cases h : trimWs t = []
  · have hnil : chunkText t cs ov = some [] := by simp [chunkText, h]
    rw [hnil] at hl
    obtain rfl := Option.some.inj hl
    intro c hc; cases hc
  · rw [chunkText_eq h cs ov] at hl
    by_cases hle : (wsSplit (cleanedText t)).length ≤ cs
    · rw [if_pos hle] at hl
      obtain rfl := Option.some.inj hl
      intro c hc
      rcases List.mem_singleton.mp hc with rfl
      exact hle
    · rw [if_neg hle] at hl
      intro c hc
      obtain ⟨i', hi', hcontent, _⟩ := slidingAux_content hl c hc
      rw [hcontent, wsSplit_window h (by omega) hi']
      rw [List.length_take]
      exact min_le_left _ _

/-- Witness for C7 at `chunkSize = 3, overlap = 1`. -/
theorem chunkText_word_count_bounded_witness :
    (wsSplit (Chunk.content ⟨"aa bb".toList, 0, 0⟩)).length ≤ 3 :=
  chunkText_word_count_bounded "aa bb".toList 3 1 (by decide) (by rfl) _
    (List.mem_singleton_self _)

/-- **C10**: for every input and parameters, the whitespace-normalization
step has already replaced every newline by a space when the paragraph split
runs, so the split yields the single cleaned text as the only paragraph, and
no emitted chunk's content contains a newline character (in particular no
blank-line separator ever appears inside a chunk). -/
theorem chunkText_single_paragraph_no_newline (t : List Char) (cs ov : Nat) :
    (trimWs t ≠ [] →
      (splitNl (cleanedText t)).filter (fun p => ¬(trimWs p).isEmpty) =
        [cleanedText t]) ∧
    (∀ l, chunkText t cs ov = some l → ∀ c ∈ l, '\n' ∉ c.content) := by
  refine ⟨fun h => paragraphs_cleanedText h, ?_⟩
  intro l hl c hc
  by_cases h : trimWs t = []
  · have hnil : chunkText t cs ov = some [] := by simp [chunkText, h]
    rw [hnil] at hl
    obtain rfl := Option.some.inj hl
    cases hc
  · rw [chunkText_eq h cs ov] at hl
    by_cases hle : (wsSplit (cleanedText t)).length ≤ cs
    · rw [if_pos hle] at hl
      obtain rfl := Option.some.inj hl
      rcases List.mem_singleton.mp hc with rfl
      exact noNl_cleanedText t
    · rw [if_neg hle] at hl
      obtain ⟨i', hi', hcontent, _⟩ := slidingAux_content hl c hc
      rw [hcontent]
      intro hmem
      rcases mem_joinSp hmem with heq | ⟨w, hw, hcw⟩
      · exact absurd heq (by decide)
      · have hwmem : w ∈ wsSplit (cleanedText t) :=
          List.mem_of_mem_drop (List.mem_of_mem_take hw)
        have hnw := wsSplit_nonWs hwmem hcw
        simp [isJsWs] at hnw

/-- Witness for C10 at the concrete text `"a\nb"`. -/
theorem chunkText_single_paragraph_no_newline_witness :
    ∀ c ∈ [(⟨"a b".toList, 0, 0⟩ : Chunk)], '\n' ∉ c.content :=
  (chunkText_single_paragraph_no_newline "a\nb".toList 500 50).2 _ (by rfl)

/-! ## Lemmas about the ranker -/

theorem scoreGtB_none_right (y x : RankedChunk) (hx : x.score = none) :
    scoreGtB y x = false := by
  unfold scoreGtB
  rw [hx]
  cases y.score <;> rfl

theorem insertScore_none (x : RankedChunk) (hx : x.score = none) (l : List RankedChunk) :
    insertScore x l = x :: l := by
  cases l with
  | nil => rfl
  | cons y ys =>
    rw [insertScore, if_neg]
    rw [scoreGtB_none_right y x hx]
    simp

theorem sortScore_eq_self_of_none :
    ∀ {l : List RankedChunk}, (∀ c ∈ l, c.score = none) → sortScore l = l := by
  intro l
  induction l with
  | nil => intro _; rfl
  | cons x xs ih =>
    intro h
    rw [sortScore, ih (fun c hc => h c (List.mem_cons_of_mem _ hc)),
      insertScore_none x (h x (List.mem_cons_self _ _))]

theorem insertScore_length (x : RankedChunk) :
    ∀ l : List RankedChunk, (insertScore x l).length = l.length + 1 := by
  intro l
  induction l with
  | nil => rfl
  | cons y ys ih =>
    rw [insertScore]
    split
    · simp [ih]
    · simp

theorem sortScore_length : ∀ l : List RankedChunk, (sortScore l).length = l.length := by
  intro l
  induction l with
  | nil => rfl
  | cons x xs ih => rw [sortScore, insertScore_length, ih, List.length_cons]

theorem insertScore_mem {z x : RankedChunk} :
    ∀ {l : List RankedChunk}, z ∈ insertScore x l → z = x ∨ z ∈ l := by
  intro l
  induction l with
  | nil =>
    intro h
    rcases List.mem_singleton.mp h with rfl
    exact Or.inl rfl
  | cons y ys ih =>
    intro h
    rw [insertScore] at h
    split at h
    · rcases List.mem_cons.mp h with rfl | h2
      · exact Or.inr (List.mem_cons_self _ _)
      · rcases ih h2 with h3 | h3
        · exact Or.inl h3
        · exact Or.inr (List.mem_cons_of_mem _ h3)
    · rcases List.mem_cons.mp h with rfl | h2
      · exact Or.inl rfl
      · exact Or.inr h2

theorem insertScore_filter (x : RankedChunk) (v : Option Int) :
    ∀ l : List RankedChunk,
      (insertScore x l).filter (fun c => c.score == v) =
        if x.score == v then x :: l.filter (fun c => c.score == v)
        else l.filter (fun c => c.score == v) := by
  intro l
  induction l with
  | nil =>
    cases hx : x.score == v <;> simp [insertScore, List.filter, hx]
  | cons y ys ih =>
    rw [insertScore]
    by_cases hyx : scoreGtB y x = true
    · rw [if_pos hyx]
      by_cases hxv : (x.score == v) = true
      · have hxv' : x.score = v := by simpa using hxv
        have hyne : y.score ≠ v := by
          intro hy
          rcases hv : x.score with _ | n
          · rw [scoreGtB_none_right y x hv] at hyx; cases hyx
          · unfold scoreGtB at hyx
            rw [hy, ← hxv', hv] at hyx
            simp at hyx
        have hyv : (y.score == v) = false := by simpa using hyne
        rw [List.filter_cons_of_neg (by simp [hyv]), ih, if_pos hxv,
          List.filter_cons_of_neg (by simp [hyv]), if_pos hxv]
      · rw [List.filter_cons, ih, if_neg hxv, if_neg hxv, List.filter_cons]
    · rw [if_neg hyx]
      by_cases hxv : (x.score == v) = true
      · rw [List.filter_cons_of_pos (by simpa using hxv), if_pos hxv]
      · rw [List.filter_cons_of_neg (by simpa using hxv), if_neg hxv]

theorem sortScore_filter (v : Option Int) :
    ∀ l : List RankedChunk,
      (sortScore l).filter (fun c => c.score == v) =
        l.filter (fun c => c.score == v) := by
  intro l
  induction l with
  | nil => rfl
  | cons x xs ih =>
    rw [sortScore, insertScore_filter, ih]
    by_cases hx : (x.score == v) = true
    · rw [if_pos hx, List.filter_cons_of_pos (by simpa using hx)]
    · rw [if_neg hx, List.filter_cons_of_neg (by simpa using hx)]

theorem sortScore_mem {c : RankedChunk} :
    ∀ {l : List RankedChunk}, c ∈ sortScore l → c ∈ l := by
  intro l
  induction l with
  | nil => intro h; cases h
  | cons y ys ih =>
    intro h
    rw [sortScore] at h
    rcases insertScore_mem h with rfl | h2
    · exact List.mem_cons_self _ _
    · exact List.mem_cons_of_mem _ (ih h2)

theorem pairwise_scoreGe_of_none {l : List RankedChunk}
    (h : ∀ c ∈ l, c.score = none) : l.Pairwise scoreGe := by
  induction l with
  | nil => exact List.Pairwise.nil
  | cons x xs ih =>
    refine List.Pairwise.cons ?_ (ih fun c hc => h c (List.mem_cons_of_mem _ hc))
    intro b _ nx ny hx
    rw [h x (List.mem_cons_self _ _)] at hx
    cases hx

theorem insertScore_pairwise {x : RankedChunk} {l : List RankedChunk}
    (hx : ∃ n, x.score = some n) (hall : ∀ c ∈ l, ∃ n, c.score = some n)
    (hl : l.Pairwise scoreGe) : (insertScore x l).Pairwise scoreGe := by
  induction l with
  | nil => simp [insertScore, List.pairwise_singleton]
  | cons y ys ih =>
    obtain ⟨hy_ys, hys⟩ := List.pairwise_cons.mp hl
    rw [insertScore]
    by_cases hyx : scoreGtB y x = true
    · rw [if_pos hyx]
      refine List.Pairwise.cons ?_ (ih (fun c hc => hall c (List.mem_cons_of_mem _ hc)) hys)
      intro z hz
      rcases insertScore_mem hz with rfl | hz2
      · intro ny nz hya hzb
        obtain ⟨nx, hnx⟩ := hx
        rw [hnx] at hzb
        obtain rfl := Option.some.inj hzb
        unfold scoreGtB at hyx
        rw [hya, hnx] at hyx
        simp at hyx
        omega
      · exact hy_ys z hz2
    · rw [if_neg hyx]
      obtain ⟨nx, hnx⟩ := hx
      obtain ⟨ny, hny⟩ := hall y (List.mem_cons_self _ _)
      have hyx2 : ny ≤ nx := by
        unfold scoreGtB at hyx
        rw [hny, hnx] at hyx
        simp at hyx
        omega
      refine List.Pairwise.cons ?_ hl
      intro z hz a b hxa hzb
      rw [hnx] at hxa
      obtain rfl := Option.some.inj hxa
      rcases List.mem_cons.mp hz with rfl | hz2
      · rw [hny] at hzb
        obtain rfl := Option.some.inj hzb
        exact hyx2
      · obtain ⟨nz, hnz⟩ := hall z (List.mem_cons_of_mem _ hz2)
        rw [hnz] at hzb
        obtain rfl := Option.some.inj hzb
        have := hy_ys z hz2 ny nz hny hnz
        omega

theorem sortScore_pairwise :
    ∀ {l : List RankedChunk}, (∀ c ∈ l, ∃ n, c.score = some n) →
      (sortScore l).Pairwise scoreGe := by
  intro l
  induction l with
  | nil => intro _; exact List.Pairwise.nil
  | cons x xs ih =>
    intro h
    rw [sortScore]
    exact insertScore_pairwise (h x (List.mem_cons_self _ _))
      (fun c hc => h c (List.mem_cons_of_mem _ (sortScore_mem hc)))
      (ih fun c hc => h c (List.mem_cons_of_mem _ hc))

theorem filter_take_isPrefix {α : Type} (p : α → Bool) :
    ∀ (l : List α) (k : Nat), (l.take k).filter p <+: l.filter p := by
  intro l
  induction l with
  | nil => intro k; simp
  | cons x xs ih =>
    intro k
    cases k with
    | zero => simp
    | succ m =>
      rw [List.take_succ_cons]
      cases hx : p x with
      | true =>
        rw [List.filter_cons_of_pos hx, List.filter_cons_of_pos hx]
        rw [List.cons_prefix_cons]
        exact ⟨rfl, ih m⟩
      | false =>
        rw [List.filter_cons_of_neg (by simp [hx]), List.filter_cons_of_neg (by simp [hx])]
        exact ih m

theorem mapM_scoreChunk_some :
    ∀ {chunks : List Chunk} {qw : List (List Char)} {scored : List RankedChunk},
      chunks.mapM (scoreChunk qw) = .ok scored →
      ∀ rc ∈ scored, ∃ n : Int, rc.score = some n := by
  intro chunks
  induction chunks with
  | nil =>
    intro qw scored h
    rw [List.mapM_nil] at h
    obtain rfl := Except.ok.inj h
    intro rc hrc
    cases hrc
  | cons c cs ih =>
    intro qw scored h
    rw [List.mapM_cons] at h
    rcases hsc : scoreChunk qw c with e | rc₀
    · rw [hsc] at h
      cases h
    · rw [hsc] at h
      rcases hrest : cs.mapM (scoreChunk qw) with e | rest
      · rw [hrest] at h
        cases h
      · rw [hrest] at h
        obtain rfl := Except.ok.inj h
        intro rc hrc
        rcases List.mem_cons.mp hrc with rfl | hrc2
        · -- an `ok` result of `scoreChunk` always carries `some` score
          simp only [scoreChunk] at hsc
          rcases hfold : List.foldlM
              (fun (acc : Int) w => do
                let re ← compileRegex w
                pure (acc + (countMatches re (toLowerStr c.content) : Int))) 0 qw with e | s
          · rw [hfold] at hsc
            cases hsc
          · rw [hfold] at hsc
            have hrc := Except.ok.inj hsc
            exact ⟨s, by rw [← hrc]⟩
        · exact ih hrest rc hrc2

/-! ## Claim theorems for the ranker -/

/-- **C9**: an empty chunk list or an empty query makes `findRelevantChunks`
return the empty sequence without raising an error. -/
theorem findRelevantChunks_empty (chunks : List Chunk) (query : List Char)
    (topK : Nat) (h : chunks = [] ∨ query = []) :
    findRelevantChunks chunks query topK = .ok [] := by
  rcases h with rfl | rfl
  · simp [findRelevantChunks]
  · simp [findRelevantChunks]

/-- Witness for C9: `rank([], "anything")` returns `[]`. -/
theorem findRelevantChunks_empty_witness :
    findRelevantChunks [] ("anything".toList) 5 = .ok [] :=
  findRelevantChunks_empty [] ("anything".toList) 5 (Or.inl rfl)

/-- **C3** (code bug): the claim says every surviving query token contributes
a case-insensitive *literal substring* count, including tokens containing
`'.'`, `'+'`, `'('`, and that scoring raises no exception.  The code builds
`new RegExp(word, "gi")` without escaping: the surviving token `"c++"` is an
invalid pattern, so the whole call throws instead of contributing a literal
count of 0; and the token `"a.c"` scores 1 against content `"abc"` (the dot
is a wildcard) although `"a.c"` never occurs literally. -/
theorem findRelevantChunks_regex_not_literal :
    queryWords "c++".toList = ["c++".toList] ∧
    findRelevantChunks [⟨"hello world".toList, 0, 0⟩] "c++".toList 5 =
      .error "nothing to repeat" ∧
    findRelevantChunks [⟨"abc".toList, 0, 0⟩] "a.c".toList 5 =
      .ok [⟨"abc".toList, 0, 0, some 1⟩] :=
  ⟨rfl, rfl, rfl⟩

/-- **C2** (counterexample): with one chunk `"hello"` and query `"zzz"` the
token `"zzz"` survives filtering and matches nothing, so the fallback
returns the first `topK` entries of the original list — but those entries do
*not* carry a score field, contradicting the claim that every returned entry
carries a non-negative integer score. -/
theorem findRelevantChunks_fallback_lacks_score :
    queryWords "zzz".toList = ["zzz".toList] ∧
    findRelevantChunks [⟨"hello".toList, 0, 0⟩] "zzz".toList 5 =
      .ok [⟨"hello".toList, 0, 0, none⟩] ∧
    ¬(∀ e ∈ [(⟨"hello".toList, 0, 0, none⟩ : RankedChunk)],
        ∃ n : Int, e.score = some n ∧ 0 ≤ n) := by
  refine ⟨rfl, rfl, ?_⟩
  intro hall
  obtain ⟨n, hn, _⟩ := hall _ (List.mem_singleton_self _)
  cases hn

/-- **C2** (amended): when at least one query token survives filtering and
every chunk's computed score is zero, `findRelevantChunks` returns the first
`topK` entries of the entire original chunk list in their input order; these
fallback entries carry no `score` field (`score = none` in the model). -/
theorem findRelevantChunks_zero_score_fallback (chunks : List Chunk)
    (query : List Char) (topK : Nat) (scored : List RankedChunk)
    (hc : ¬chunks.isEmpty = true) (hq : ¬query.isEmpty = true)
    (hqw : ¬(queryWords query).isEmpty = true)
    (hscored : chunks.mapM (scoreChunk (queryWords query)) = .ok scored)
    (hzero : ∀ rc ∈ scored, rc.score = some 0) :
    findRelevantChunks chunks query topK = .ok ((chunks.take topK).map toRanked) ∧
    ∀ e ∈ (chunks.take topK).map toRanked, e.score = none := by
  have hnone : ∀ c ∈ chunks.map toRanked, c.score = none := by
    intro c hc'
    obtain ⟨a, _, rfl⟩ := List.mem_map.mp hc'
    rfl
  constructor
  · simp only [findRelevantChunks]
    rw [if_neg (by simp [hc, hq]), if_neg hqw, hscored]
    have hfilt : scored.filter (fun c => 0 < c.score.getD 0) = [] := by
      rw [List.filter_eq_nil_iff]
      intro a ha
      rw [hzero a ha]
      simp
    show Except.ok ((sortScore (if (scored.filter (fun c => 0 < c.score.getD 0)).isEmpty
        then chunks.map toRanked else scored.filter (fun c => 0 < c.score.getD 0))).take topK) = _
    rw [hfilt]
    simp only [List.isEmpty_nil]
    rw [if_pos trivial, sortScore_eq_self_of_none hnone, ← List.map_take]
  · intro e he
    obtain ⟨a, _, rfl⟩ := List.mem_map.mp he
    rfl

/-- Witness for the amended C2 at one chunk `"hello"` and query `"zzz"`. -/
theorem findRelevantChunks_zero_score_fallback_witness :
    findRelevantChunks [⟨"hello".toList, 0, 0⟩] "zzz".toList 5 =
      .ok (([(⟨"hello".toList, 0, 0⟩ : Chunk)].take 5).map toRanked) ∧
    ∀ e ∈ ([(⟨"hello".toList, 0, 0⟩ : Chunk)].take 5).map toRanked, e.score = none :=
  findRelevantChunks_zero_score_fallback _ _ 5 [⟨"hello".toList, 0, 0, some 0⟩]
    (by decide) (by decide) (by decide) (by rfl) (by decide)

/-- **C8**: the ranked output is sorted by non-increasing score; entries with
equal scores keep the relative order they had in the candidate sequence
(stability, expressed as: for every score value `v`, the sub-sequence of
entries with score `v` is a prefix of that of the candidate set); and the
result length is `min topK (number of selected candidates)`. -/
theorem findRelevantChunks_sorted_stable_topK (chunks : List Chunk)
    (query : List Char) (topK : Nat) (res : List RankedChunk)
    (h : findRelevantChunks chunks query topK = .ok res) :
    res.Pairwise scoreGe ∧
    res.length = min topK (selectedSet chunks query).length ∧
    (∀ v : Option Int, res.filter (fun c => c.score == v) <+:
      (selectedSet chunks query).filter (fun c => c.score == v)) := by
  by_cases h1 : (chunks.isEmpty || query.isEmpty) = true
  · have hres : res = [] := by
      simp only [findRelevantChunks] at h
      rw [if_pos h1] at h
      exact (Except.ok.inj h).symm
    have hsel : selectedSet chunks query = [] := by
      simp only [selectedSet]
      rw [if_pos h1]
    subst hres
    rw [hsel]
    exact ⟨List.Pairwise.nil, by simp, fun v => by simp⟩
  · by_cases h2 : (queryWords query).isEmpty = true
    · have hres : res = (chunks.take topK).map toRanked := by
        simp only [findRelevantChunks] at h
        rw [if_neg h1, if_pos h2] at h
        exact (Except.ok.inj h).symm
      have hsel : selectedSet chunks query = chunks.map toRanked := by
        simp only [selectedSet]
        rw [if_neg h1, if_pos h2]
      subst hres
      rw [hsel]
      refine ⟨?_, ?_, fun v => ?_⟩
      · apply pairwise_scoreGe_of_none
        intro c hc
        obtain ⟨a, _, rfl⟩ := List.mem_map.mp hc
        rfl
      · simp
      · rw [List.map_take]
        exact filter_take_isPrefix _ _ _
    · rcases hm : chunks.mapM (scoreChunk (queryWords query)) with e | scored
      · exfalso
        simp only [findRelevantChunks] at h
        rw [if_neg h1, if_neg h2, hm] at h
        cases h
      · have hallsome : ∀ rc ∈ scored, ∃ n, rc.score = some n := mapM_scoreChunk_some hm
        have hres : res = (sortScore (if (scored.filter (fun c => 0 < c.score.getD 0)).isEmpty
            then chunks.map toRanked
            else scored.filter (fun c => 0 < c.score.getD 0))).take topK := by
          simp only [findRelevantChunks] at h
          rw [if_neg h1, if_neg h2, hm] at h
          exact (Except.ok.inj h).symm
        have hsel : selectedSet chunks query =
            (if (scored.filter (fun c => 0 < c.score.getD 0)).isEmpty
             then chunks.map toRanked
             else scored.filter (fun c => 0 < c.score.getD 0)) := by
          simp only [selectedSet]
          rw [if_neg h1, if_neg h2, hm]
        subst hres
        rw [hsel]
        refine ⟨?_, ?_, fun v => ?_⟩
        · by_cases hf : (scored.filter (fun c => 0 < c.score.getD 0)).isEmpty = true
          · rw [if_pos hf]
            have hnone : ∀ c ∈ chunks.map toRanked, c.score = none := by
              intro c hc'
              obtain ⟨a, _, rfl⟩ := List.mem_map.mp hc'
              rfl
            rw [sortScore_eq_self_of_none hnone]
            exact List.Pairwise.sublist (List.take_sublist _ _)
              (pairwise_scoreGe_of_none hnone)
          · rw [if_neg hf]
            have hsome : ∀ c ∈ scored.filter (fun c => 0 < c.score.getD 0),
                ∃ n, c.score = some n :=
              fun c hc => hallsome c (List.mem_filter.mp hc).1
            exact List.Pairwise.sublist (List.take_sublist _ _)
              (sortScore_pairwise hsome)
        · rw [List.length_take, sortScore_length]
        · have hpre := filter_take_isPrefix (fun c => c.score == v)
            (sortScore (if (scored.filter (fun c => 0 < c.score.getD 0)).isEmpty
              then chunks.map toRanked
              else scored.filter (fun c => 0 < c.score.getD 0))) topK
          rw [sortScore_filter] at hpre
          exact hpre

/-- Witness for C8 on three chunks with a tie (`"xx apple yy"` and
`"zz apple"` both score 1 and keep their input order). -/
theorem findRelevantChunks_sorted_stable_topK_witness :
    ([⟨"apple apple".toList, 1, 0, some 2⟩, ⟨"xx apple yy".toList, 0, 0, some 1⟩,
      ⟨"zz apple".toList, 2, 0, some 1⟩] : List RankedChunk).Pairwise scoreGe ∧
    ([⟨"apple apple".toList, 1, 0, some 2⟩, ⟨"xx apple yy".toList, 0, 0, some 1⟩,
      ⟨"zz apple".toList, 2, 0, some 1⟩] : List RankedChunk).length =
      min 5 (selectedSet [⟨"xx apple yy".toList, 0, 0⟩, ⟨"apple apple".toList, 1, 0⟩,
        ⟨"zz apple".toList, 2, 0⟩] "apple".toList).length ∧
    (∀ v : Option Int,
      ([⟨"apple apple".toList, 1, 0, some 2⟩, ⟨"xx apple yy".toList, 0, 0, some 1⟩,
        ⟨"zz apple".toList, 2, 0, some 1⟩] : List RankedChunk).filter
          (fun c => c.score == v) <+:
      (selectedSet [⟨"xx apple yy".toList, 0, 0⟩, ⟨"apple apple".toList, 1, 0⟩,
        ⟨"zz apple".toList, 2, 0⟩] "apple".toList).filter (fun c => c.score == v)) :=
  findRelevantChunks_sorted_stable_topK _ _ 5 _ (by rfl)

end TextChunker
